import Mathlib

/-!
Verification of the dependency-path explorer.

The program reads directed edges "A -> B", builds an adjacency list from the
unique left-hand nodes, and recursively enumerates every walk that starts at a
still-activated source node, stopping a branch at a sink node or at the first
node revisited on that branch.  Completed walks are classified as acyclic,
self-returning loop (first element equals last element), or containing an
interior loop, and displayed in that order.

The embedding below follows the C++ sources: `findPathsF` embeds `find_paths`
(the recursion is indexed by explicit fuel, one unit per recursive call, so
that termination itself becomes a provable statement rather than an assumption;
the C++ function has no fuel and the termination theorem shows fuel
`distinct keys + 1` always suffices), `runFrom` embeds the top-level driver
loop of `main` (parameterised by the key iteration order, which is
implementation defined for the `unordered_map` of the source; it additionally
returns the list of nodes actually chosen as enumeration roots, a ghost
observation used only in statements), and `classify` / `classifyAll` embed the
classification loop of `main`.
-/

namespace DepGraph

/-- A path is an ordered list of node identifiers, root first
(`std::vector<std::string>` in the source). -/
abbrev Path := List String

/-- Adjacency map: association list from a node to its ordered successor
sequence (`std::unordered_map<std::string, std::vector<std::string>>`;
only lookup is ever used on it, so the association-list order is irrelevant). -/
abbrev Adj := List (String × List String)

/-- The mutable state threaded through the traversal: `all_paths` is the shared
result collection, and `act_dep` records the set of nodes whose activation flag
has been set to `false` (`act_dep[x] = false` in the source corresponds to
`x ∈ act_dep` here; `main` initialises every flag to `true`, i.e. `act_dep = []`). -/
structure DState where
  all_paths : List Path
  act_dep : List String

/-- One edge step of the graph: `b` occurs in the stored successor sequence
of `a`. -/
def edgeStep (adj : Adj) (a b : String) : Prop :=
  b ∈ (adj.lookup a).getD []

/-- The `for (neighbor : adj_list.at(start))` loop of `find_paths`: run `f` on
each successor in order, threading the state; propagate fuel exhaustion. -/
def runList (f : String → DState → Option DState) :
    List String → DState → Option DState
  | [], st => some st
  | n :: ns, st =>
    match f n st with
    | none => none
    | some st' => runList f ns st'

/-- Embedding of `find_paths(start, adj_list, path, visited, all_paths, act_dep)`.
The C++ function first sets `act_dep[start] = false`; if `start` was already
visited on this branch it appends `start` once more, stores the path, and
returns; otherwise it appends `start` to the branch-local path and visited set
(passed by value to each recursive call in the source, hence plain arguments
here) and recurses into each stored successor, storing the path only when
`start` has no adjacency entry (sink).  `none` means the fuel bound on the
recursion depth was exceeded. -/
def findPathsF : Nat → Adj → String → Path → List String → DState → Option DState
  | 0, _, _, _, _, _ => none
  | fuel + 1, adj, start, path, visited, st =>
    let st1 : DState := { st with act_dep := start :: st.act_dep }
    if start ∈ visited then
      some { st1 with all_paths := st1.all_paths ++ [path ++ [start]] }
    else
      match adj.lookup start with
      | some neighbors =>
          runList (fun n s => findPathsF fuel adj n (path ++ [start]) (start :: visited) s)
            neighbors st1
      | none =>
          some { st1 with all_paths := st1.all_paths ++ [path ++ [start]] }

/-- Embedding of the top-level driver loop of `main`: for each key (in the
given iteration order) whose activation flag is still true, start a fresh
enumeration with empty path and visited set.  The second component of the
result is a ghost log of the nodes actually chosen as enumeration roots. -/
def runFrom (adj : Adj) (fuel : Nat) :
    List String → DState → Option (DState × List String)
  | [], st => some (st, [])
  | k :: ks, st =>
    if k ∈ st.act_dep then runFrom adj fuel ks st
    else
      match findPathsF fuel adj k [] [] st with
      | none => none
      | some st1 =>
        match runFrom adj fuel ks st1 with
        | none => none
        | some (stf, roots) => some (stf, k :: roots)

/-- Embedding of the adjacency-list construction of `main`: for every unique
left-hand node, the successor sequence collects the right-hand sides of its
edges in input order.  (The source stores the unique keys in a `std::set` and
the map in an `unordered_map`; since only lookup and an explicitly given
iteration order are used, the key order of this association list is
immaterial.) -/
def buildAdj (edges : List (String × String)) : Adj :=
  ((edges.map Prod.fst).dedup).map
    (fun k => (k, (edges.filter (fun e => e.1 == k)).map Prod.snd))

/-- Number of distinct keys of the adjacency map. -/
def distinctKeys (adj : Adj) : Nat :=
  ((adj.map Prod.fst).dedup).length

/-- Number of distinct adjacency keys not yet in the visited set: the
termination measure of `find_paths`. -/
def newKeys (adj : Adj) (visited : List String) : Nat :=
  (((adj.map Prod.fst).dedup).filter (fun k => decide (k ∉ visited))).length

/-- One step of the repeated-node scan in `main`'s classification loop:
the flag becomes true as soon as the current node is already in the set of
nodes seen so far. -/
def loopStep (acc : Bool × List String) (node : String) : Bool × List String :=
  (acc.1 || decide (node ∈ acc.2), node :: acc.2)

/-- `is_loop` of `main`: true iff some identifier occurs more than once in the
path. -/
def pathIsLoop (p : Path) : Bool :=
  (p.foldl loopStep (false, [])).1

/-- The three output categories of `main`. -/
inductive Category where
  | acyclic
  | selfLoop
  | interiorLoop
deriving DecidableEq

/-- The classification applied to each completed path in `main`: repeated node
and first element equal to last element gives a self-returning loop, repeated
node otherwise an interior loop, no repeated node an acyclic path. -/
def classify (p : Path) : Category :=
  if pathIsLoop p then
    if p.headD "" = p.getLastD "" then Category.selfLoop else Category.interiorLoop
  else Category.acyclic

/-- `main`'s rendering of a path: every node followed by `" -> "`, with the
trailing four characters removed at the end. -/
def renderPath (p : Path) : String :=
  (p.foldl (fun s n => s ++ n ++ " -> ") "").dropRight 4

/-- One iteration of `main`'s classification loop: append the rendered path to
the accumulator of its category (`no_loop_paths`, `is_loop_paths`,
`contain_loop_paths`). -/
def clStep (acc : List String × List String × List String) (p : Path) :
    List String × List String × List String :=
  let po := renderPath p
  if pathIsLoop p then
    if p.headD "" = p.getLastD "" then (acc.1, acc.2.1 ++ [po], acc.2.2)
    else (acc.1, acc.2.1, acc.2.2 ++ [po])
  else (acc.1 ++ [po], acc.2.1, acc.2.2)

/-- The classification loop of `main` over the whole result collection, in
production order. -/
def classifyAll (paths : List Path) : List String × List String × List String :=
  paths.foldl clStep ([], [], [])

/-- The display order of `main`: all acyclic paths, then all self-returning
loops, then all paths containing an interior loop. -/
def displayLines (paths : List Path) : List String :=
  (classifyAll paths).1 ++ (classifyAll paths).2.1 ++ (classifyAll paths).2.2

/-- Scenario A of the spec: edges `A->B, B->C, C->A`. -/
def adjA : Adj := buildAdj [("A", "B"), ("B", "C"), ("C", "A")]

/-- Scenario C of the spec: edges `F3->A1, A1->B1, B1->C1, D3->G3`. -/
def adjC : Adj := buildAdj [("F3", "A1"), ("A1", "B1"), ("B1", "C1"), ("D3", "G3")]

example : findPathsF 4 adjA "A" [] [] ⟨[], []⟩ =
    some ⟨[["A", "B", "C", "A"]], ["A", "C", "B", "A"]⟩ := rfl

example : runFrom adjA 4 ["A", "B", "C"] ⟨[], []⟩ =
    some (⟨[["A", "B", "C", "A"]], ["A", "C", "B", "A"]⟩, ["A"]) := rfl

example : runFrom adjC 5 ["F3", "A1", "B1", "D3"] ⟨[], []⟩ =
    some (⟨[["F3", "A1", "B1", "C1"], ["D3", "G3"]],
           ["G3", "D3", "C1", "B1", "A1", "F3"]⟩, ["F3", "D3"]) := rfl

example : classify ["A", "B", "C", "A"] = Category.selfLoop := rfl
example : classify ["F3", "A1", "B1", "C1"] = Category.acyclic := rfl
example : classify ["A", "B", "C", "B"] = Category.interiorLoop := rfl
example : renderPath ["A", "B"] = "A -> B" := rfl

/-! ### Generic facts about the successor loop -/

/-- A predicate preserved by every step of the successor loop is preserved by
the whole loop. -/
lemma runList_inv (f : String → DState → Option DState) (P : DState → Prop) :
    ∀ (ns : List String) (st st' : DState),
      (∀ n s s', n ∈ ns → P s → f n s = some s' → P s') →
      P st → runList f ns st = some st' → P st'
  | [], st, st', _, hP, h => by
      simp only [runList, Option.some.injEq] at h
      exact h ▸ hP
  | n :: t, st, st', hstep, hP, h => by
      simp only [runList] at h
      cases hfn : f n st with
      | none => rw [hfn] at h; cases h
      | some st1 =>
          rw [hfn] at h
          exact runList_inv f P t st1 st'
            (fun n' s s' hn' => hstep n' s s' (List.mem_cons_of_mem _ hn'))
            (hstep n st st1 (List.mem_cons_self _ _) hP hfn) h

/-- If every step of the successor loop succeeds, the loop succeeds. -/
lemma runList_isSome (f : String → DState → Option DState) :
    ∀ (ns : List String) (st : DState),
      (∀ n s, n ∈ ns → (f n s).isSome) → (runList f ns st).isSome
  | [], st, _ => by simp [runList]
  | n :: t, st, hstep => by
      simp only [runList]
      cases hfn : f n st with
      | none =>
          have := hstep n st (List.mem_cons_self _ _)
          rw [hfn] at this
          cases this
      | some st1 =>
          exact runList_isSome f t st1
            (fun n' s hn' => hstep n' s (List.mem_cons_of_mem _ hn'))

/-! ### Basic facts about association-list lookup -/

/-- A successful lookup means the key occurs among the stored keys. -/
lemma lookup_mem_keys {β : Type} :
    ∀ {l : List (String × β)} {a : String} {v : β},
      l.lookup a = some v → a ∈ l.map Prod.fst
  | [], a, v, h => by cases h
  | (k, w) :: t, a, v, h => by
      cases hk : a == k with
      | true =>
          simp only [List.map_cons]
          rw [eq_of_beq hk]
          exact List.mem_cons_self _ _
      | false =>
          simp only [List.lookup, hk] at h
          exact List.mem_cons_of_mem _ (lookup_mem_keys h)

/-- A key of the map has a successful lookup. -/
lemma lookup_isSome_of_mem {β : Type} :
    ∀ {l : List (String × β)} {a : String},
      a ∈ l.map Prod.fst → (l.lookup a).isSome
  | [], a, h => by cases h
  | (k, w) :: t, a, h => by
      cases hk : a == k with
      | true => simp [List.lookup, hk]
      | false =>
          simp only [List.lookup, hk]
          simp only [List.map_cons] at h
          rcases List.mem_cons.mp h with h1 | h1
          · rw [h1, beq_self_eq_true] at hk
            cases hk
          · exact lookup_isSome_of_mem h1

/-! ### The termination measure -/

/-- Extending the visited set with a present, not-yet-visited element strictly
shrinks the set of unvisited elements of any list containing it. -/
lemma length_filter_cons_lt (s : String) (visited : List String) :
    ∀ (l : List String), s ∈ l → s ∉ visited →
      (l.filter (fun k => decide (k ∉ s :: visited))).length <
        (l.filter (fun k => decide (k ∉ visited))).length := by
  intro l
  induction l with
  | nil => intro h; cases h
  | cons a t ih =>
      intro hmem hnv
      by_cases has : a = s
      · subst has
        have h1 : (decide (a ∉ a :: visited)) = false := by simp
        have h2 : (decide (a ∉ visited)) = true := by simpa using hnv
        rw [List.filter_cons, List.filter_cons, h1, h2]
        simp only [if_false, if_true]
        have hsub : List.Sublist (t.filter (fun k => decide (k ∉ a :: visited)))
            (t.filter (fun k => decide (k ∉ visited))) := by
          apply List.monotone_filter_right
          intro x hx
          simp only [decide_eq_true_eq] at hx ⊢
          exact fun hv => hx (List.mem_cons_of_mem _ hv)
        exact Nat.lt_succ_of_le hsub.length_le
      · have hmem' : s ∈ t := by
          rcases List.mem_cons.mp hmem with h | h
          · exact absurd h.symm has
          · exact h
        have hcond : (decide (a ∉ s :: visited)) = (decide (a ∉ visited)) := by
          by_cases hv : a ∈ visited
          · simp [hv]
          · simp [hv, List.mem_cons, has]
        rw [List.filter_cons, List.filter_cons, hcond]
        by_cases hv : (decide (a ∉ visited)) = true
        · rw [hv]
          simp only [if_true, List.length_cons]
          exact Nat.succ_lt_succ (ih hmem' hnv)
        · rw [Bool.not_eq_true] at hv
          rw [hv]
          simp only [Bool.false_eq_true, if_false]
          exact ih hmem' hnv

/-- Visiting a not-yet-visited key strictly decreases the termination
measure. -/
lemma newKeys_cons_lt {adj : Adj} {start : String} {visited : List String}
    (hkey : start ∈ (adj.map Prod.fst)) (hnv : start ∉ visited) :
    newKeys adj (start :: visited) < newKeys adj visited :=
  length_filter_cons_lt start visited _ (List.mem_dedup.mpr hkey) hnv

/-- The termination measure never exceeds the number of distinct keys. -/
lemma newKeys_le (adj : Adj) (visited : List String) :
    newKeys adj visited ≤ distinctKeys adj :=
  List.length_filter_le _ _

/-- Fuel exceeding the number of distinct unvisited keys suffices: the
embedded recursion never runs out of fuel. -/
lemma fp_isSome :
    ∀ (fuel : Nat) (adj : Adj) (start : String) (path : Path)
      (visited : List String) (st : DState),
      newKeys adj visited < fuel →
      (findPathsF fuel adj start path visited st).isSome
  | 0, _, _, _, _, _, h => absurd h (Nat.not_lt_zero _)
  | fuel + 1, adj, start, path, visited, st, h => by
      simp only [findPathsF]
      by_cases hv : start ∈ visited
      · simp [hv]
      · simp only [hv, if_false]
        cases hlk : adj.lookup start with
        | none => simp
        | some neighbors =>
            apply runList_isSome
            intro n s _
            apply fp_isSome
            have hkey : start ∈ adj.map Prod.fst := lookup_mem_keys hlk
            have hlt : newKeys adj (start :: visited) < newKeys adj visited :=
              newKeys_cons_lt hkey hv
            exact Nat.lt_of_lt_of_le hlt (Nat.lt_succ_iff.mp h)

/-- Fuel sufficiency for the whole driver loop. -/
lemma run_isSome (adj : Adj) (fuel : Nat) (h : newKeys adj [] < fuel) :
    ∀ (order : List String) (st : DState), (runFrom adj fuel order st).isSome
  | [], st => by simp [runFrom]
  | k :: ks, st => by
      simp only [runFrom]
      by_cases hk : k ∈ st.act_dep
      · simp only [hk, if_true]
        exact run_isSome adj fuel h ks st
      · simp only [hk, if_false]
        cases hfp : findPathsF fuel adj k [] [] st with
        | none =>
            have := fp_isSome fuel adj k [] [] st h
            rw [hfp] at this
            cases this
        | some st1 =>
            cases hrun : runFrom adj fuel ks st1 with
            | none =>
                have := run_isSome adj fuel h ks st1
                rw [hrun] at this
                cases this
            | some r => simp [hrun]

/-! ### Invariants of the traversal -/

/-- Appending a fresh element preserves `Nodup`. -/
lemma nodup_snoc {a : String} {l : List String} (hn : l.Nodup) (ha : a ∉ l) :
    (l ++ [a]).Nodup := by
  rw [List.nodup_append]
  exact ⟨hn, List.nodup_singleton a,
    fun x hx hy => ha ((List.mem_singleton.mp hy) ▸ hx)⟩

/-- Appending an element related to the last one preserves `Chain'`. -/
lemma chain'_snoc {R : String → String → Prop} {l : List String} {a : String}
    (hc : l.Chain' R) (hlast : ∀ x, l.getLast? = some x → R x a) :
    (l ++ [a]).Chain' R := by
  rw [List.chain'_append]
  refine ⟨hc, List.chain'_singleton a, fun x hx y hy => ?_⟩
  rw [List.head?] at hy
  simp only [Option.mem_def, Option.some.injEq] at hy
  exact hy ▸ hlast x hx

/-- Every successful call of the traversal marks its own start node
deactivated and never reactivates a node (`act_dep[start] = false` happens
unconditionally at the top of `find_paths`, and flags are never set back to
`true`). -/
lemma fp_act :
    ∀ (fuel : Nat) (adj : Adj) (start : String) (path : Path)
      (visited : List String) (st st' : DState),
      findPathsF fuel adj start path visited st = some st' →
      (∀ x, x ∈ st.act_dep → x ∈ st'.act_dep) ∧ start ∈ st'.act_dep
  | 0, _, _, _, _, _, _, h => by cases h
  | fuel + 1, adj, start, path, visited, st, st', h => by
      simp only [findPathsF] at h
      by_cases hv : start ∈ visited
      · rw [if_pos hv] at h
        injection h with h
        exact h ▸ ⟨fun x hx => List.mem_cons_of_mem _ hx, List.mem_cons_self _ _⟩
      · rw [if_neg hv] at h
        cases hlk : adj.lookup start with
        | none =>
            rw [hlk] at h
            injection h with h
            exact h ▸ ⟨fun x hx => List.mem_cons_of_mem _ hx, List.mem_cons_self _ _⟩
        | some neighbors =>
            rw [hlk] at h
            have hP := runList_inv _
              (fun s => (∀ x, x ∈ st.act_dep → x ∈ s.act_dep) ∧ start ∈ s.act_dep)
              neighbors _ st'
              (fun n s s' _ hP hf =>
                ⟨fun x hx => (fp_act fuel adj n _ _ s s' hf).1 x (hP.1 x hx),
                 (fp_act fuel adj n _ _ s s' hf).1 start hP.2⟩)
              ⟨fun x hx => List.mem_cons_of_mem _ hx, List.mem_cons_self _ _⟩ h
            exact hP

/-- Master invariant of `find_paths`: provided the branch-local `path` and
`visited` are consistent (equal as sets, duplicate-free, forming a walk whose
last node links to `start`, all already deactivated), every path added to the
result collection extends `path` by `start`, has pairwise-distinct elements
apart from possibly the last, is a walk of the graph, consists of deactivated
nodes only, and — when `start` is unvisited and has an adjacency entry —
continues past `start` with one of its stored successors. -/
lemma fp_master :
    ∀ (fuel : Nat) (adj : Adj) (start : String) (path : Path)
      (visited : List String) (st st' : DState),
      findPathsF fuel adj start path visited st = some st' →
      (∀ x, x ∈ path → x ∈ visited) →
      path.Nodup →
      path.Chain' (edgeStep adj) →
      (∀ a, path.getLast? = some a → edgeStep adj a start) →
      (∀ x, x ∈ path → x ∈ st.act_dep) →
      ∀ p, p ∈ st'.all_paths → p ∈ st.all_paths ∨
        ∃ suffix, p = path ++ start :: suffix ∧
          p.dropLast.Nodup ∧ p.Chain' (edgeStep adj) ∧
          (∀ x, x ∈ p → x ∈ st'.act_dep) ∧
          ∀ l, start ∉ visited → adj.lookup start = some l →
            ∃ n, n ∈ l ∧ ∃ s2, suffix = n :: s2
  | 0, _, _, _, _, _, _, h => by cases h
  | fuel + 1, adj, start, path, visited, st, st', h => by
      intro h1 h2 h3 h4 h5
      simp only [findPathsF] at h
      by_cases hv : start ∈ visited
      · rw [if_pos hv] at h
        injection h with h
        subst h
        intro p hp
        rcases List.mem_append.mp hp with hp | hp
        · exact Or.inl hp
        · refine Or.inr ⟨[], List.mem_singleton.mp hp, ?_, ?_, ?_, ?_⟩
          · rw [List.mem_singleton.mp hp, List.dropLast_concat]
            exact h2
          · rw [List.mem_singleton.mp hp]
            exact chain'_snoc h3 h4
          · intro x hx
            rw [List.mem_singleton.mp hp] at hx
            rcases List.mem_append.mp hx with hx | hx
            · exact List.mem_cons_of_mem _ (h5 x hx)
            · rw [List.mem_singleton.mp hx]
              exact List.mem_cons_self _ _
          · intro l hv' _
            exact absurd hv hv'
      · rw [if_neg hv] at h
        have hstart_path : start ∉ path := fun hc => hv (h1 start hc)
        cases hlk : adj.lookup start with
        | none =>
            rw [hlk] at h
            injection h with h
            subst h
            intro p hp
            rcases List.mem_append.mp hp with hp | hp
            · exact Or.inl hp
            · refine Or.inr ⟨[], List.mem_singleton.mp hp, ?_, ?_, ?_, ?_⟩
              · rw [List.mem_singleton.mp hp, List.dropLast_concat]
                exact h2
              · rw [List.mem_singleton.mp hp]
                exact chain'_snoc h3 h4
              · intro x hx
                rw [List.mem_singleton.mp hp] at hx
                rcases List.mem_append.mp hx with hx | hx
                · exact List.mem_cons_of_mem _ (h5 x hx)
                · rw [List.mem_singleton.mp hx]
                  exact List.mem_cons_self _ _
              · intro l _ hlk'
                cases hlk'
        | some neighbors =>
            rw [hlk] at h
            have hP := runList_inv _
              (fun s => (∀ x, x ∈ start :: st.act_dep → x ∈ s.act_dep) ∧
                ∀ p, p ∈ s.all_paths → p ∈ st.all_paths ∨
                  ∃ suffix, p = path ++ start :: suffix ∧
                    p.dropLast.Nodup ∧ p.Chain' (edgeStep adj) ∧
                    (∀ x, x ∈ p → x ∈ s.act_dep) ∧
                    ∃ n, n ∈ neighbors ∧ ∃ s2, suffix = n :: s2)
              neighbors { all_paths := st.all_paths, act_dep := start :: st.act_dep } st'
              ?_ ⟨fun x hx => hx, fun p hp => Or.inl hp⟩ h
            case _ =>
              intro p hp
              rcases hP.2 p hp with hp' | ⟨suffix, heq, hnd, hch, hact, n, hn, s2, hs2⟩
              · exact Or.inl hp'
              · refine Or.inr ⟨suffix, heq, hnd, hch, hact, fun l _ hlk' => ?_⟩
                injection hlk' with hlk'
                exact hlk' ▸ ⟨n, hn, s2, hs2⟩
            case _ =>
              intro n s s' hn hPs hf
              have hmono := (fp_act fuel adj n _ _ s s' hf).1
              have hrec := fp_master fuel adj n (path ++ [start]) (start :: visited) s s' hf
                (fun x hx => by
                  rcases List.mem_append.mp hx with hx | hx
                  · exact List.mem_cons_of_mem _ (h1 x hx)
                  · rw [List.mem_singleton.mp hx]
                    exact List.mem_cons_self _ _)
                (nodup_snoc h2 hstart_path)
                (chain'_snoc h3 h4)
                (fun a ha => by
                  rw [List.getLast?_concat] at ha
                  injection ha with ha
                  rw [← ha]
                  show n ∈ (adj.lookup start).getD []
                  rw [hlk]
                  exact hn)
                (fun x hx => by
                  rcases List.mem_append.mp hx with hx | hx
                  · exact hPs.1 x (List.mem_cons_of_mem _ (h5 x hx))
                  · rw [List.mem_singleton.mp hx]
                    exact hPs.1 start (List.mem_cons_self _ _))
              refine ⟨fun x hx => hmono x (hPs.1 x hx), fun p hp => ?_⟩
              rcases hrec p hp with hp' | ⟨suffix', heq', hnd', hch', hact', _⟩
              · rcases hPs.2 p hp' with hp'' | ⟨suffix, heq, hnd, hch, hact, n', hn', s2, hs2⟩
                · exact Or.inl hp''
                · exact Or.inr ⟨suffix, heq, hnd, hch,
                    fun x hx => hmono x (hact x hx), n', hn', s2, hs2⟩
              · refine Or.inr ⟨n :: suffix', ?_, hnd', hch', hact', n, hn, suffix', rfl⟩
                rw [heq', List.append_assoc, List.singleton_append]

/-- The master invariant specialised to a top-level enumeration (empty path
and visited set). -/
lemma fp_top {fuel : Nat} {adj : Adj} {start : String} {st st' : DState}
    (h : findPathsF fuel adj start [] [] st = some st') :
    ∀ p, p ∈ st'.all_paths → p ∈ st.all_paths ∨
      ∃ suffix, p = start :: suffix ∧
        p.dropLast.Nodup ∧ p.Chain' (edgeStep adj) ∧
        (∀ x, x ∈ p → x ∈ st'.act_dep) ∧
        ∀ l, adj.lookup start = some l → ∃ n, n ∈ l ∧ ∃ s2, suffix = n :: s2 := by
  intro p hp
  rcases fp_master fuel adj start [] [] st st' h
      (fun x hx => absurd hx (List.not_mem_nil x)) List.nodup_nil List.chain'_nil
      (fun a ha => by cases ha)
      (fun x hx => absurd hx (List.not_mem_nil x)) p hp with
    hl | ⟨suffix, heq, hnd, hch, hact, hcond⟩
  · exact Or.inl hl
  · exact Or.inr ⟨suffix, heq, hnd, hch, hact,
      fun l hlk => hcond l (List.not_mem_nil start) hlk⟩

/-- Inversion of one driver-loop step whose node is still activated and whose
enumeration succeeds. -/
lemma runFrom_cons_inv {adj : Adj} {fuel : Nat} {k : String} {ks : List String}
    {st : DState} {r : DState × List String}
    (hk : k ∉ st.act_dep) (h : runFrom adj fuel (k :: ks) st = some r) :
    ∃ st1 stf roots, findPathsF fuel adj k [] [] st = some st1 ∧
      runFrom adj fuel ks st1 = some (stf, roots) ∧ r = (stf, k :: roots) := by
  simp only [runFrom, if_neg hk] at h
  cases hfp : findPathsF fuel adj k [] [] st with
  | none =>
      rw [hfp] at h
      have h2 : (none : Option (DState × List String)) = some r := h
      cases h2
  | some st1 =>
      rw [hfp] at h
      have h2 : (match runFrom adj fuel ks st1 with
        | none => none
        | some (stf, roots) => some (stf, k :: roots)) = some r := h
      cases hrun : runFrom adj fuel ks st1 with
      | none =>
          rw [hrun] at h2
          have h3 : (none : Option (DState × List String)) = some r := h2
          cases h3
      | some r2 =>
          obtain ⟨stf, roots⟩ := r2
          rw [hrun] at h2
          have h3 : some (stf, k :: roots) = some r := h2
          injection h3 with h3
          exact ⟨st1, stf, roots, rfl, hrun, h3.symm⟩

/-- Facts about a whole driver run: flags only move from activated to
deactivated, a node deactivated before the loop reaches it is never chosen as
a root, and every collected path starts at a root chosen from the iteration
order, has pairwise-distinct elements apart from possibly the last, is a walk
of the graph, and — when its root has an adjacency entry — continues with one
of the root's stored successors. -/
lemma run_basic :
    ∀ (order : List String) (adj : Adj) (fuel : Nat) (st st' : DState)
      (roots : List String),
      runFrom adj fuel order st = some (st', roots) →
      (∀ x, x ∈ st.act_dep → x ∈ st'.act_dep) ∧
      (∀ X, X ∈ st.act_dep → X ∉ roots) ∧
      (∀ p, p ∈ st'.all_paths → p ∈ st.all_paths ∨
        (p.dropLast.Nodup ∧ p.Chain' (edgeStep adj) ∧
         (∀ x, x ∈ p → x ∈ st'.act_dep) ∧
         ∃ k, k ∈ order ∧ ∃ suffix, p = k :: suffix ∧
           ∀ l, adj.lookup k = some l → ∃ n, n ∈ l ∧ ∃ s2, suffix = n :: s2))
  | [], adj, fuel, st, st', roots, h => by
      simp only [runFrom, Option.some.injEq, Prod.mk.injEq] at h
      obtain ⟨h1, h2⟩ := h
      subst h1; subst h2
      exact ⟨fun x hx => hx, fun X _ hX => absurd hX (List.not_mem_nil X),
        fun p hp => Or.inl hp⟩
  | k :: ks, adj, fuel, st, st', roots, h => by
      by_cases hk : k ∈ st.act_dep
      · rw [runFrom, if_pos hk] at h
        obtain ⟨ha, hr, hp⟩ := run_basic ks adj fuel st st' roots h
        refine ⟨ha, hr, fun p hmem => ?_⟩
        rcases hp p hmem with hl | ⟨hnd, hch, hact, k', hk', rest⟩
        · exact Or.inl hl
        · exact Or.inr ⟨hnd, hch, hact, k', List.mem_cons_of_mem _ hk', rest⟩
      · obtain ⟨st1, stf, rts, hfp, hrun, hr⟩ := runFrom_cons_inv hk h
        have hre : st' = stf := congrArg Prod.fst hr
        have hre2 : roots = k :: rts := congrArg Prod.snd hr
        subst hre; subst hre2
        obtain ⟨ha, hrt, hp⟩ := run_basic ks adj fuel st1 st' rts hrun
        have hact1 := fp_act fuel adj k [] [] st st1 hfp
        refine ⟨fun x hx => ha x (hact1.1 x hx), ?_, ?_⟩
        · intro X hX
          rw [List.mem_cons]
          rintro (hX1 | hX1)
          · exact hk (hX1 ▸ hX)
          · exact hrt X (hact1.1 X hX) hX1
        · intro p hmem
          rcases hp p hmem with hl | ⟨hnd, hch, hact, k', hk', rest⟩
          · rcases fp_top hfp p hl with hl' | ⟨suffix, heq, hnd, hch, hact, hcond⟩
            · exact Or.inl hl'
            · exact Or.inr ⟨heq ▸ hnd, heq ▸ hch,
                fun x hx => ha x (hact x hx), k, List.mem_cons_self _ _,
                suffix, heq, hcond⟩
          · exact Or.inr ⟨hnd, hch, hact, k', List.mem_cons_of_mem _ hk', rest⟩

/-! ### The classifier -/

/-- Characterisation of the repeated-node scan, generalised over the
accumulator. -/
lemma loopFold :
    ∀ (l : List String) (b : Bool) (seen : List String),
      (l.foldl loopStep (b, seen)).1 = true ↔
        (b = true ∨ ¬ l.Nodup ∨ ∃ x, x ∈ l ∧ x ∈ seen)
  | [], b, seen => by simp
  | a :: t, b, seen => by
      simp only [List.foldl_cons, loopStep]
      rw [loopFold t (b || decide (a ∈ seen)) (a :: seen)]
      simp only [Bool.or_eq_true, decide_eq_true_eq, List.nodup_cons, List.mem_cons,
        not_and]
      constructor
      · rintro ((hb | hs) | hnd | ⟨x, hx, (rfl | hxs)⟩)
        · exact Or.inl hb
        · exact Or.inr (Or.inr ⟨a, Or.inl rfl, hs⟩)
        · exact Or.inr (Or.inl (fun _ => hnd))
        · exact Or.inr (Or.inl (fun hna => absurd hx hna))
        · exact Or.inr (Or.inr ⟨x, Or.inr hx, hxs⟩)
      · rintro (hb | hnd | ⟨x, (rfl | hx), hxs⟩)
        · exact Or.inl (Or.inl hb)
        · by_cases hat : a ∈ t
          · exact Or.inr (Or.inr ⟨a, hat, Or.inl rfl⟩)
          · exact Or.inr (Or.inl (hnd hat))
        · exact Or.inl (Or.inr hxs)
        · exact Or.inr (Or.inr ⟨x, hx, Or.inr hxs⟩)

/-- `is_loop` is set exactly when the path has a repeated identifier. -/
lemma pathIsLoop_iff (p : Path) : pathIsLoop p = true ↔ ¬ p.Nodup := by
  unfold pathIsLoop
  rw [loopFold p false []]
  simp

/-- `is_loop` stays false exactly when the path is duplicate-free. -/
lemma pathIsLoop_eq_false (p : Path) : pathIsLoop p = false ↔ p.Nodup := by
  rw [← Bool.not_eq_true, not_iff_comm, ← pathIsLoop_iff]

/-- A path is classified acyclic exactly when no identifier repeats. -/
lemma classify_acyclic_iff (p : Path) : classify p = Category.acyclic ↔ p.Nodup := by
  unfold classify
  by_cases hl : pathIsLoop p
  · rw [if_pos hl]
    have hnd := pathIsLoop_iff p |>.mp hl
    constructor
    · intro hc
      by_cases he : p.headD "" = p.getLastD ""
      · rw [if_pos he] at hc; cases hc
      · rw [if_neg he] at hc; cases hc
    · intro hnd'
      exact absurd hnd' hnd
  · rw [if_neg hl]
    have hnd := pathIsLoop_eq_false p |>.mp (Bool.not_eq_true _ ▸ hl)
    exact iff_of_true rfl hnd

/-- A path is classified as a self-returning loop exactly when it has a
repeated identifier and its first element equals its last element. -/
lemma classify_selfLoop_iff (p : Path) :
    classify p = Category.selfLoop ↔ ¬ p.Nodup ∧ p.headD "" = p.getLastD "" := by
  unfold classify
  by_cases hl : pathIsLoop p
  · rw [if_pos hl]
    have hnd := pathIsLoop_iff p |>.mp hl
    by_cases he : p.headD "" = p.getLastD ""
    · rw [if_pos he]
      exact iff_of_true rfl ⟨hnd, he⟩
    · rw [if_neg he]
      constructor
      · intro hc; cases hc
      · intro hc; exact absurd hc.2 he
  · rw [if_neg hl]
    have hnd := pathIsLoop_eq_false p |>.mp (Bool.not_eq_true _ ▸ hl)
    constructor
    · intro hc; cases hc
    · intro hc; exact absurd hnd hc.1

/-- A path is classified as containing an interior loop exactly when it has a
repeated identifier and its first element differs from its last element. -/
lemma classify_interior_iff (p : Path) :
    classify p = Category.interiorLoop ↔ ¬ p.Nodup ∧ p.headD "" ≠ p.getLastD "" := by
  unfold classify
  by_cases hl : pathIsLoop p
  · rw [if_pos hl]
    have hnd := pathIsLoop_iff p |>.mp hl
    by_cases he : p.headD "" = p.getLastD ""
    · rw [if_pos he]
      constructor
      · intro hc; cases hc
      · intro hc; exact absurd he hc.2
    · rw [if_neg he]
      exact iff_of_true rfl ⟨hnd, he⟩
  · rw [if_neg hl]
    have hnd := pathIsLoop_eq_false p |>.mp (Bool.not_eq_true _ ▸ hl)
    constructor
    · intro hc; cases hc
    · intro hc; exact absurd hnd hc.1

/-- The default-valued last element of a nonempty list is one of its
elements. -/
lemma getLastD_mem :
    ∀ (l : List String) (d : String), l ≠ [] → l.getLastD d ∈ l
  | [], _, h => absurd rfl h
  | [a], d, _ => by simp [List.getLastD]
  | a :: b :: t, d, _ => by
      rw [List.getLastD_cons]
      exact List.mem_cons_of_mem _ (getLastD_mem (b :: t) a (by simp))

/-- A path of length at least two whose first element equals its last element
has a repeated identifier. -/
lemma head_eq_last_not_nodup {k n : String} {s2 : List String}
    (he : (k :: n :: s2).headD "" = (k :: n :: s2).getLastD "") :
    ¬ (k :: n :: s2).Nodup := by
  intro hnd
  have hk : k = (n :: s2).getLastD k := by
    rw [← List.getLastD_cons]
    exact he
  have hmem : (n :: s2).getLastD k ∈ n :: s2 := getLastD_mem (n :: s2) k (by simp)
  rw [← hk] at hmem
  exact (List.nodup_cons.mp hnd).1 hmem

/-- The classification loop, generalised over the three accumulators: it
appends to each category, in production order, exactly the rendered paths the
classifier assigns to that category. -/
lemma classifyAll_go :
    ∀ (paths : List Path) (a b c : List String),
      paths.foldl clStep (a, b, c) =
        (a ++ (paths.filter (fun p => decide (classify p = Category.acyclic))).map renderPath,
         b ++ (paths.filter (fun p => decide (classify p = Category.selfLoop))).map renderPath,
         c ++ (paths.filter (fun p => decide (classify p = Category.interiorLoop))).map renderPath)
  | [], a, b, c => by simp
  | p :: t, a, b, c => by
      simp only [List.foldl_cons]
      by_cases hl : pathIsLoop p
      · by_cases he : p.headD "" = p.getLastD ""
        · have hcl : classify p = Category.selfLoop := by
            unfold classify; rw [if_pos hl, if_pos he]
          have hstep : clStep (a, b, c) p = (a, b ++ [renderPath p], c) := by
            unfold clStep; rw [if_pos hl, if_pos he]
          rw [hstep, classifyAll_go t a (b ++ [renderPath p]) c]
          simp [List.filter_cons, hcl, List.append_assoc]
        · have hcl : classify p = Category.interiorLoop := by
            unfold classify; rw [if_pos hl, if_neg he]
          have hstep : clStep (a, b, c) p = (a, b, c ++ [renderPath p]) := by
            unfold clStep; rw [if_pos hl, if_neg he]
          rw [hstep, classifyAll_go t a b (c ++ [renderPath p])]
          simp [List.filter_cons, hcl, List.append_assoc]
      · have hcl : classify p = Category.acyclic := by
          unfold classify; rw [if_neg hl]
        have hstep : clStep (a, b, c) p = (a ++ [renderPath p], b, c) := by
          unfold clStep; rw [if_neg hl]
        rw [hstep, classifyAll_go t (a ++ [renderPath p]) b c]
        simp [List.filter_cons, hcl, List.append_assoc]

/-- Lookup in an association list built by tabulating a function over a key
list. -/
lemma lookup_map_self {g : String → List String} :
    ∀ (l : List String) (k : String) (v : List String),
      (l.map (fun x => (x, g x))).lookup k = some v → k ∈ l ∧ v = g k
  | [], k, v, h => by cases h
  | a :: t, k, v, h => by
      cases hk : k == a with
      | true =>
          have hka := eq_of_beq hk
          simp only [List.map_cons, List.lookup, hk, Option.some.injEq] at h
          exact ⟨hka ▸ List.mem_cons_self _ _, by rw [hka, ← h]⟩
      | false =>
          simp only [List.map_cons, List.lookup, hk] at h
          obtain ⟨hm, hv⟩ := lookup_map_self t k v h
          exact ⟨List.mem_cons_of_mem _ hm, hv⟩

/-! ### The claims -/

/-- C1: for every finite adjacency map — cyclic ones included — every
invocation of the enumeration terminates: each branch stops at a sink or at
the first revisited node, so recursion depth is bounded by the number of
distinct node identifiers plus one.  In the embedding, any fuel of at least
`distinctKeys adj + 1` (hence in particular `distinct identifiers + 1`, which
is no smaller) makes both a single enumeration and the whole driver run
succeed without exhausting the recursion-depth budget. -/
theorem claim_C1 :
    (∀ (adj : Adj) (start : String) (path : Path) (visited : List String)
       (st : DState) (fuel : Nat), distinctKeys adj + 1 ≤ fuel →
       (findPathsF fuel adj start path visited st).isSome) ∧
    (∀ (adj : Adj) (order : List String) (st : DState) (fuel : Nat),
       distinctKeys adj + 1 ≤ fuel → (runFrom adj fuel order st).isSome) := by
  constructor
  · intro adj start path visited st fuel hf
    exact fp_isSome fuel adj start path visited st
      (Nat.lt_of_lt_of_le (Nat.lt_succ_of_le (newKeys_le adj visited)) hf)
  · intro adj order st fuel hf
    exact run_isSome adj fuel
      (Nat.lt_of_lt_of_le (Nat.lt_succ_of_le (newKeys_le adj [])) hf) order st

theorem claim_C1_witness :
    (findPathsF 4 adjA "A" [] [] ⟨[], []⟩).isSome ∧
    (runFrom adjA 4 ["A", "B", "C"] ⟨[], []⟩).isSome :=
  ⟨claim_C1.1 adjA "A" [] [] ⟨[], []⟩ 4 (by decide),
   claim_C1.2 adjA ["A", "B", "C"] ⟨[], []⟩ 4 (by decide)⟩

/-- C2: a branch reaching a node already in its visited set appends that node
once more as final element, emits the path, and returns without exploring the
node's successors (the result is a literal record independent of the adjacency
entries); consequently every collected path has pairwise-distinct elements
except possibly the last. -/
theorem claim_C2 :
    (∀ (fuel : Nat) (adj : Adj) (start : String) (path : Path)
       (visited : List String) (st : DState), start ∈ visited →
       findPathsF (fuel + 1) adj start path visited st =
         some ⟨st.all_paths ++ [path ++ [start]], start :: st.act_dep⟩) ∧
    (∀ (adj : Adj) (fuel : Nat) (order : List String) (st' : DState)
       (roots : List String),
       runFrom adj fuel order ⟨[], []⟩ = some (st', roots) →
       ∀ p, p ∈ st'.all_paths → p.dropLast.Nodup) := by
  constructor
  · intro fuel adj start path visited st hv
    simp only [findPathsF]
    rw [if_pos hv]
  · intro adj fuel order st' roots h p hp
    rcases (run_basic order adj fuel ⟨[], []⟩ st' roots h).2.2 p hp with hl | ⟨hnd, _⟩
    · cases hl
    · exact hnd

theorem claim_C2_witness :
    findPathsF 1 adjA "A" ["A"] ["A"] ⟨[], []⟩ = some ⟨[["A", "A"]], ["A"]⟩ ∧
    (["A", "B", "C", "A"] : Path).dropLast.Nodup :=
  ⟨claim_C2.1 0 adjA "A" ["A"] ["A"] ⟨[], []⟩ (by decide),
   claim_C2.2 adjA 4 ["A", "B", "C"]
     ⟨[["A", "B", "C", "A"]], ["A", "C", "B", "A"]⟩ ["A"] rfl
     ["A", "B", "C", "A"] (by simp)⟩

/-- C3: the classifier assigns every path to exactly one of the three
categories, and a path is classified acyclic exactly when no identifier occurs
more than once anywhere in it. -/
theorem claim_C3 :
    ∀ p : Path,
      ((classify p = Category.acyclic ∨ classify p = Category.selfLoop ∨
          classify p = Category.interiorLoop) ∧
        ¬(classify p = Category.acyclic ∧ classify p = Category.selfLoop) ∧
        ¬(classify p = Category.acyclic ∧ classify p = Category.interiorLoop) ∧
        ¬(classify p = Category.selfLoop ∧ classify p = Category.interiorLoop)) ∧
      (classify p = Category.acyclic ↔ ¬ ∃ x, 2 ≤ p.count x) := by
  intro p
  refine ⟨⟨?_, ?_, ?_, ?_⟩, ?_⟩
  · cases h : classify p
    · exact Or.inl rfl
    · exact Or.inr (Or.inl rfl)
    · exact Or.inr (Or.inr rfl)
  · rintro ⟨h1, h2⟩; rw [h1] at h2; cases h2
  · rintro ⟨h1, h2⟩; rw [h1] at h2; cases h2
  · rintro ⟨h1, h2⟩; rw [h1] at h2; cases h2
  · rw [classify_acyclic_iff, List.nodup_iff_count_le_one]
    constructor
    · rintro h ⟨x, hx⟩
      have := h x
      omega
    · intro h x
      by_contra hc
      exact h ⟨x, by omega⟩

theorem claim_C3_witness : classify ["X", "Y"] = Category.acyclic :=
  (claim_C3 ["X", "Y"]).2.mpr
    (fun ⟨x, hx⟩ => absurd hx (by
      have h := List.nodup_iff_count_le_one.mp
        (by decide : (["X", "Y"] : List String).Nodup) x
      omega))

/-- C4: a path emitted by the traversal is classified as a self-returning loop
exactly when its last element equals its first element. -/
theorem claim_C4 :
    ∀ (adj : Adj) (fuel : Nat) (order : List String) (st' : DState)
      (roots : List String),
      runFrom adj fuel order ⟨[], []⟩ = some (st', roots) →
      (∀ k, k ∈ order → (adj.lookup k).isSome) →
      ∀ p, p ∈ st'.all_paths →
        (classify p = Category.selfLoop ↔ p.headD "" = p.getLastD "") := by
  intro adj fuel order st' roots h hkeys p hp
  rcases (run_basic order adj fuel ⟨[], []⟩ st' roots h).2.2 p hp with
    hl | ⟨hnd, hch, hact, k, hk, suffix, heq, hcond⟩
  · cases hl
  · obtain ⟨l, hl⟩ := Option.isSome_iff_exists.mp (hkeys k hk)
    obtain ⟨n, hn, s2, hs2⟩ := hcond l hl
    subst hs2
    subst heq
    constructor
    · intro hc
      exact (classify_selfLoop_iff _ |>.mp hc).2
    · intro he
      exact classify_selfLoop_iff _ |>.mpr ⟨head_eq_last_not_nodup he, he⟩

theorem claim_C4_witness : classify ["A", "B", "C", "A"] = Category.selfLoop :=
  (claim_C4 adjA 4 ["A", "B", "C"]
    ⟨[["A", "B", "C", "A"]], ["A", "C", "B", "A"]⟩ ["A"] rfl (by decide)
    ["A", "B", "C", "A"] (by simp)).mpr rfl

/-- C5: every invocation of the traversal deactivates its start node —
including when it terminates immediately through the revisit check — and never
reactivates anything; all nodes visited by a top-level enumeration (start,
interior steps, and revisited terminus alike, i.e. every element of each
collected path) end up deactivated; and a node deactivated before the driver
loop reaches it is never chosen as the root of a later top-level
enumeration. -/
theorem claim_C5 :
    (∀ (fuel : Nat) (adj : Adj) (start : String) (path : Path)
       (visited : List String) (st st' : DState),
       findPathsF fuel adj start path visited st = some st' →
       (∀ x, x ∈ st.act_dep → x ∈ st'.act_dep) ∧ start ∈ st'.act_dep) ∧
    (∀ (fuel : Nat) (adj : Adj) (start : String) (st st' : DState),
       findPathsF fuel adj start [] [] st = some st' →
       ∀ p, p ∈ st'.all_paths → p ∈ st.all_paths ∨ ∀ x, x ∈ p → x ∈ st'.act_dep) ∧
    (∀ (adj : Adj) (fuel : Nat) (order : List String) (st st' : DState)
       (roots : List String),
       runFrom adj fuel order st = some (st', roots) →
       ∀ X, X ∈ st.act_dep → X ∉ roots) := by
  refine ⟨fp_act, ?_, ?_⟩
  · intro fuel adj start st st' h p hp
    rcases fp_top h p hp with hl | ⟨suffix, heq, hnd, hch, hact, hcond⟩
    · exact Or.inl hl
    · exact Or.inr hact
  · intro adj fuel order st st' roots h
    exact (run_basic order adj fuel st st' roots h).2.1

theorem claim_C5_witness :
    ("A" ∈ (["A", "C", "B", "A"] : List String)) ∧
    ("A1" ∉ ([] : List String)) :=
  ⟨(claim_C5.1 4 adjA "A" [] [] ⟨[], []⟩
      ⟨[["A", "B", "C", "A"]], ["A", "C", "B", "A"]⟩ rfl).2,
   claim_C5.2.2 adjC 5 ["A1"] ⟨[], ["A1"]⟩ ⟨[], ["A1"]⟩ [] rfl "A1" (by decide)⟩

/-- C6: on the three-cycle `A->B, B->C, C->A` (keys iterated in adjacency
order, starting at A), the run produces exactly one completed path,
`A, B, C, A`, classified as a self-returning loop, with zero acyclic and zero
interior-loop paths. -/
theorem claim_C6 :
    ∃ st roots, runFrom adjA 4 ["A", "B", "C"] ⟨[], []⟩ = some (st, roots) ∧
      st.all_paths = [["A", "B", "C", "A"]] ∧
      classify ["A", "B", "C", "A"] = Category.selfLoop ∧
      st.all_paths.filter (fun p => decide (classify p = Category.acyclic)) = [] ∧
      st.all_paths.filter (fun p => decide (classify p = Category.selfLoop)) =
        [["A", "B", "C", "A"]] ∧
      st.all_paths.filter (fun p => decide (classify p = Category.interiorLoop)) = [] :=
  ⟨⟨[["A", "B", "C", "A"]], ["A", "C", "B", "A"]⟩, ["A"],
    rfl, rfl, rfl, rfl, rfl, rfl⟩

/-- C7: on `F3->A1, A1->B1, B1->C1, D3->G3` (keys iterated in adjacency
order), the run performs exactly two top-level enumerations, rooted at F3
(producing `F3, A1, B1, C1`) and at D3 (producing `D3, G3`); neither A1 nor B1
is ever used as a top-level root. -/
theorem claim_C7 :
    ∃ st roots, runFrom adjC 5 ["F3", "A1", "B1", "D3"] ⟨[], []⟩ = some (st, roots) ∧
      st.all_paths = [["F3", "A1", "B1", "C1"], ["D3", "G3"]] ∧
      roots = ["F3", "D3"] ∧ 2 ≤ roots.length ∧
      "A1" ∉ roots ∧ "B1" ∉ roots :=
  ⟨⟨[["F3", "A1", "B1", "C1"], ["D3", "G3"]],
    ["G3", "D3", "C1", "B1", "A1", "F3"]⟩, ["F3", "D3"],
    rfl, rfl, rfl, by decide, by decide, by decide⟩

/-- C8: the displayed output lists all acyclic paths first, then all
self-returning loops, then all interior-loop paths, and within each category
the paths appear in production order (the partition is a stable filter of the
traversal output). -/
theorem claim_C8 :
    ∀ paths : List Path,
      displayLines paths =
        ((paths.filter fun p => decide (classify p = Category.acyclic)).map renderPath) ++
        ((paths.filter fun p => decide (classify p = Category.selfLoop)).map renderPath) ++
        ((paths.filter fun p => decide (classify p = Category.interiorLoop)).map renderPath) := by
  intro paths
  unfold displayLines classifyAll
  rw [classifyAll_go paths [] [] []]
  simp

/-- C9: every path placed in the result collection is a walk of the graph:
each element is followed by a member of its stored successor sequence. -/
theorem claim_C9 :
    ∀ (adj : Adj) (fuel : Nat) (order : List String) (st' : DState)
      (roots : List String),
      runFrom adj fuel order ⟨[], []⟩ = some (st', roots) →
      ∀ p, p ∈ st'.all_paths → p.Chain' (edgeStep adj) := by
  intro adj fuel order st' roots h p hp
  rcases (run_basic order adj fuel ⟨[], []⟩ st' roots h).2.2 p hp with hl | ⟨_, hch, _⟩
  · cases hl
  · exact hch

theorem claim_C9_witness : List.Chain' (edgeStep adjA) ["A", "B", "C", "A"] :=
  claim_C9 adjA 4 ["A", "B", "C"]
    ⟨[["A", "B", "C", "A"]], ["A", "C", "B", "A"]⟩ ["A"] rfl
    ["A", "B", "C", "A"] (by simp)

/-- C10: every collected path has length at least two and starts at a key of
the adjacency map; moreover every key of a built adjacency map has at least
one outgoing edge, so no single-node path is ever emitted. -/
theorem claim_C10 :
    (∀ (adj : Adj) (fuel : Nat) (order : List String) (st' : DState)
       (roots : List String),
       runFrom adj fuel order ⟨[], []⟩ = some (st', roots) →
       (∀ k, k ∈ order → (adj.lookup k).isSome) →
       ∀ p, p ∈ st'.all_paths → 2 ≤ p.length ∧ p.headD "" ∈ adj.map Prod.fst) ∧
    (∀ (edges : List (String × String)) (k : String) (vs : List String),
       (buildAdj edges).lookup k = some vs → vs ≠ []) := by
  constructor
  · intro adj fuel order st' roots h hkeys p hp
    rcases (run_basic order adj fuel ⟨[], []⟩ st' roots h).2.2 p hp with
      hl | ⟨_, _, _, k, hk, suffix, heq, hcond⟩
    · cases hl
    · obtain ⟨l, hl⟩ := Option.isSome_iff_exists.mp (hkeys k hk)
      obtain ⟨n, hn, s2, hs2⟩ := hcond l hl
      subst hs2
      subst heq
      exact ⟨Nat.succ_le_succ (Nat.succ_le_succ (Nat.zero_le _)), lookup_mem_keys hl⟩
  · intro edges k vs hlk hnil
    unfold buildAdj at hlk
    obtain ⟨hm, hv⟩ := lookup_map_self _ k vs hlk
    obtain ⟨e, he, hek⟩ := List.mem_map.mp (List.mem_dedup.mp hm)
    have hef : e ∈ edges.filter (fun x => x.1 == k) :=
      List.mem_filter.mpr ⟨he, beq_iff_eq.mpr hek⟩
    rw [hnil] at hv
    have hfil : edges.filter (fun x => x.1 == k) = [] :=
      List.map_eq_nil_iff.mp hv.symm
    rw [hfil] at hef
    cases hef

theorem claim_C10_witness :
    2 ≤ (["A", "B", "C", "A"] : Path).length ∧
    ("A" : String) ∈ adjA.map Prod.fst :=
  claim_C10.1 adjA 4 ["A", "B", "C"]
    ⟨[["A", "B", "C", "A"]], ["A", "C", "B", "A"]⟩ ["A"] rfl (by decide)
    ["A", "B", "C", "A"] (by simp)

end DepGraph
